import Mathlib

/-!
Shallow embedding of the segmented downloader core of `cli_downloader_app.py`:
thread-count selection (`choose_threads`, lines 32-39), range planning
(`download_file_rich`, lines 98-100), the per-part worker loop and its retry
backoff (`download_range`, lines 45-71), the part-merge step and the
metadata/skip logic of `download_file_rich` (lines 78-131), and the shared
progress counter (lines 62-66 and 103-113).  Python integers are unbounded,
so machine integers are modelled as `Nat`; filesystem and network effects are
modelled by explicit state (part-file contents as `Nat → Option (List Nat)`,
HTTP responses as explicit records).
-/

/-- `choose_threads(file_size)` (lines 32-39): part count as a step function
of file size.  Python `//` on non-negative integers is `Nat` division. -/
def choose_threads (file_size : Nat) : Nat :=
  if file_size < 50 * 1024 * 1024 then 1
  else if file_size < 500 * 1024 * 1024 then
    min 4 (max 2 (file_size / (50 * 1024 * 1024)))
  else
    min 16 (max 4 (file_size / (100 * 1024 * 1024)))

/-- `part_size = ceil(file_size / num_threads)` (line 99), with
`num_threads = choose_threads(file_size)`, as exact ceiling division. -/
def part_size (file_size : Nat) : Nat :=
  (file_size + choose_threads file_size - 1) / choose_threads file_size

/-- Start offset of planned range `i`: `i * part_size` (line 100). -/
def range_start (file_size i : Nat) : Nat :=
  i * part_size file_size

/-- Inclusive end offset of planned range `i`:
`min((i + 1) * part_size - 1, file_size - 1)` (line 100). -/
def range_end (file_size i : Nat) : Nat :=
  min ((i + 1) * part_size file_size - 1) (file_size - 1)

/-- The planned range list
`[(i * part_size, min((i + 1) * part_size - 1, file_size - 1)) for i in range(num_threads)]`
(line 100). -/
def plan_ranges (file_size : Nat) : List (Nat × Nat) :=
  (List.range (choose_threads file_size)).map
    (fun i => (range_start file_size i, range_end file_size i))

/-- `wait_time = min(60, 2 ** min(downloaded // 1_000_000, 6))` (line 69):
the retry backoff as a function of bytes already banked in the part file. -/
def wait_time (downloaded : Nat) : Nat :=
  min 60 (2 ^ min (downloaded / 1000000) 6)

/-- The `Range` header interval of the first request issued by
`download_range` (lines 50-52): the loop is entered only while
`downloaded < end - start + 1`, and the request then asks for
`bytes={start + downloaded}-{end}`.  `downloaded` is the on-disk part-file
size at worker start (line 48).  `none` means no request is issued. -/
def first_request (start stop downloaded : Nat) : Option (Nat × Nat) :=
  if downloaded < stop - start + 1 then some (start + downloaded, stop) else none

/-- One iteration outcome of the `download_range` retry loop (lines 50-71).
`success cs` is an exception-free response whose streamed chunks have sizes
`cs` (all appended to the part file, then the loop `break`s, line 67);
`fail cs` is an iteration that raised after appending chunks of sizes `cs`
(possibly none, e.g. `raise_for_status`), after which the loop retries. -/
inductive Attempt where
  | fail (chunks : List Nat)
  | success (chunks : List Nat)

/-- The `download_range` worker loop (lines 50-71) over a finite prefix of
attempt outcomes.  `len` is `end - start + 1`, `downloaded` the current
part-file size.  Returns the final part-file size when the worker returns;
`none` means the attempt list ran out while the loop would still retry
(the real loop retries indefinitely). -/
def download_range_loop : Nat → List Attempt → Nat → Option Nat
  | len, [], downloaded => if downloaded < len then none else some downloaded
  | len, a :: rest, downloaded =>
    if downloaded < len then
      match a with
      | .success cs => some (downloaded + cs.sum)
      | .fail cs => download_range_loop len rest (downloaded + cs.sum)
    else some downloaded

/-- One `advance` of the shared progress counter:
`progress_state[0] += len(chunk)` under `progress_lock` (lines 64-65). -/
def advance (total delta : Nat) : Nat :=
  total + delta

/-- The progress counter after a finite sequence of lock-serialised
`advance` calls, starting from `already_downloaded` (line 110). -/
def run_advances (init : Nat) (deltas : List Nat) : Nat :=
  deltas.foldl advance init

/-! ### The merge step (`download_file_rich`, lines 125-131)

The filesystem state relevant to the merge is the family of part-file
contents (`Nat → Option (List Nat)`, `none` = file absent) and the
destination contents.  `open(filename, "wb")` truncates the destination to
empty before any part is read; each part is then read, appended to the
destination and immediately deleted (`os.remove`); a missing part file makes
`open(part_file, "rb")` raise, aborting the loop at that point. -/

structure MergeResult where
  dest : List Nat
  parts : Nat → Option (List Nat)
  errored : Bool

/-- The merge loop `for i in range(num_threads)` (lines 127-131) over an
explicit index list, threading destination contents and part files. -/
def mergeStep : (Nat → Option (List Nat)) → List Nat → List Nat → MergeResult
  | ps, dest, [] => ⟨dest, ps, false⟩
  | ps, dest, i :: rest =>
    match ps i with
    | none => ⟨dest, ps, true⟩
    | some c => mergeStep (fun j => if j = i then none else ps j) (dest ++ c) rest

/-- The whole merge (lines 126-131): destination truncated by `open("wb")`,
then parts `0 .. num_threads - 1` concatenated in index order. -/
def merge_parts (num_threads : Nat) (ps : Nat → Option (List Nat)) : MergeResult :=
  mergeStep ps [] (List.range num_threads)

/-- In-order concatenation of the part files named by an index list. -/
def joinParts : (Nat → Option (List Nat)) → List Nat → List Nat
  | _, [] => []
  | ps, i :: rest => (ps i).getD [] ++ joinParts ps rest

/-! ### Metadata probe, skip check and planning (`download_file_rich`, lines 78-100) -/

def emptyStr : String := ""

/-- `"text/html"`, the first marker checked at line 89. -/
def htmlMarker : String := "text/html"

/-- `"application/json"`, the second marker checked at line 89. -/
def jsonMarker : String := "application/json"

/-- Python `str.lower()` (ASCII-relevant part used on header values). -/
def lowerStr (s : String) : String :=
  String.mk (s.data.map Char.toLower)

/-- Python `needle in hay` substring containment on strings. -/
def strContains (hay needle : String) : Bool :=
  (List.range (hay.data.length + 1)).any (fun i => needle.data.isPrefixOf (hay.data.drop i))

/-- The HEAD response consumed by `download_file_rich` (line 78): status code
and the headers the function reads.  `none` models an absent header. -/
structure HeadResponse where
  status : Nat
  location : Option String
  contentLength : Option Nat
  contentType : Option String

/-- Where `download_file_rich` ends up after lines 78-100, before any part
download.  `keyErrorLocation` is the `KeyError` raised by
`response.headers['Location']` (line 83) when the status is not 2xx and no
`Location` header exists; `metadataError` is the exception at line 87;
`contentTypeError` the one at line 90; `skippedAlreadyComplete` the early
`return` at line 96; `proceed` carries the file size and the planned ranges
(lines 98-100). -/
inductive CoordOutcome where
  | keyErrorLocation
  | metadataError
  | contentTypeError
  | skippedAlreadyComplete
  | proceed (fileSize : Nat) (ranges : List (Nat × Nat))
  deriving DecidableEq

/-- Lines 78-100 of `download_file_rich`: content-type lookup with `""`
default and lowercasing (line 80), the non-2xx diagnostic that dereferences
`headers['Location']` (lines 81-83), the Content-Length check (lines 84-87),
the content-type check (lines 89-90), the skip check against the existing
destination (lines 94-96), and range planning (lines 98-100).
`destExists`/`destSize` model `os.path.exists(filename)`/`os.path.getsize`. -/
def download_file_rich_plan (resp : HeadResponse) (destExists : Bool) (destSize : Nat) :
    CoordOutcome :=
  let ct := lowerStr (resp.contentType.getD emptyStr)
  if (resp.status < 200 ∨ 299 < resp.status) ∧ resp.location = none then
    CoordOutcome.keyErrorLocation
  else
    match resp.contentLength with
    | none => CoordOutcome.metadataError
    | some file_size =>
      if strContains ct htmlMarker || strContains ct jsonMarker then
        CoordOutcome.contentTypeError
      else if destExists && destSize == file_size then
        CoordOutcome.skippedAlreadyComplete
      else
        CoordOutcome.proceed file_size (plan_ranges file_size)

/-! ### Arithmetic facts about the planner -/

lemma choose_threads_pos (fs : Nat) : 0 < choose_threads fs := by
  unfold choose_threads
  split_ifs with h1 h2
  · exact Nat.one_pos
  · exact lt_of_lt_of_le (by norm_num)
      (le_min (by norm_num) (le_max_left 2 (fs / (50 * 1024 * 1024))))
  · exact lt_of_lt_of_le (by norm_num)
      (le_min (by norm_num) (le_max_left 4 (fs / (100 * 1024 * 1024))))

lemma choose_threads_le_16 (fs : Nat) : choose_threads fs ≤ 16 := by
  unfold choose_threads
  split_ifs with h1 h2
  · norm_num
  · exact le_trans (min_le_left _ _) (by norm_num)
  · exact min_le_left _ _

/-- In every tier, `n * (n - 1) < file_size` for `n = choose_threads file_size`
(the inequality that makes every planned range non-empty). -/
lemma choose_threads_mul_pred_lt (fs : Nat) (h : 0 < fs) :
    choose_threads fs * (choose_threads fs - 1) < fs := by
  unfold choose_threads
  split_ifs with h1 h2
  · simpa using h
  · have hn : min 4 (max 2 (fs / (50 * 1024 * 1024))) ≤ 4 := min_le_left _ _
    have hb : min 4 (max 2 (fs / (50 * 1024 * 1024))) *
        (min 4 (max 2 (fs / (50 * 1024 * 1024))) - 1) ≤ 4 * 3 :=
      Nat.mul_le_mul hn (by omega)
    exact lt_of_le_of_lt hb (by omega)
  · have hn : min 16 (max 4 (fs / (100 * 1024 * 1024))) ≤ 16 := min_le_left _ _
    have hb : min 16 (max 4 (fs / (100 * 1024 * 1024))) *
        (min 16 (max 4 (fs / (100 * 1024 * 1024))) - 1) ≤ 16 * 15 :=
      Nat.mul_le_mul hn (by omega)
    exact lt_of_le_of_lt hb (by omega)

lemma lt_div_succ_mul (a b : Nat) (hb : 0 < b) : a < (a / b + 1) * b := by
  calc a = a % b + b * (a / b) := (Nat.mod_add_div a b).symm
    _ < b + b * (a / b) := Nat.add_lt_add_right (Nat.mod_lt a hb) _
    _ = (a / b + 1) * b := by ring

lemma part_size_pos (fs : Nat) (h : 0 < fs) : 0 < part_size fs := by
  unfold part_size
  have hn := choose_threads_pos fs
  exact Nat.div_pos (by omega) hn

/-- `file_size ≤ num_threads * part_size`: the ranges reach the end of the file. -/
lemma file_size_le_threads_mul (fs : Nat) :
    fs ≤ choose_threads fs * part_size fs := by
  unfold part_size
  have hnpos : 0 < choose_threads fs := choose_threads_pos fs
  set n := choose_threads fs with hn
  have key := lt_div_succ_mul (fs + n - 1) n hnpos
  rw [Nat.add_mul, Nat.one_mul] at key
  rw [Nat.mul_comm]
  revert key
  generalize (fs + n - 1) / n * n = X
  intro key
  omega

/-- `(num_threads - 1) * part_size < file_size`: even the last range starts
strictly inside the file. -/
lemma pred_threads_mul_lt (fs : Nat) (h : 0 < fs) :
    (choose_threads fs - 1) * part_size fs < fs := by
  have hnpos := choose_threads_pos fs
  have hmul := choose_threads_mul_pred_lt fs h
  have hub : part_size fs * choose_threads fs ≤ fs + choose_threads fs - 1 := by
    unfold part_size
    exact Nat.div_mul_le_self _ _
  set n := choose_threads fs with hn
  set p := part_size fs with hp
  rcases Nat.lt_or_ge p n with hpn | hpn
  · have h1 : (n - 1) * p ≤ (n - 1) * (n - 1) := Nat.mul_le_mul_left _ (by omega)
    have h2 : (n - 1) * (n - 1) ≤ n * (n - 1) := Nat.mul_le_mul_right _ (by omega)
    exact lt_of_le_of_lt (le_trans h1 h2) hmul
  · have hsucc : (n - 1) * p + p = n * p := by
      have hs : n - 1 + 1 = n := Nat.succ_pred_eq_of_pos hnpos
      calc (n - 1) * p + p = (n - 1 + 1) * p := by ring
        _ = n * p := by rw [hs]
    have hub' : n * p ≤ fs + n - 1 := by rw [Nat.mul_comm p n] at hub; exact hub
    revert hsucc hub'
    generalize (n - 1) * p = B
    generalize n * p = A
    intro hsucc hub'
    omega

lemma range_start_zero (fs : Nat) : range_start fs 0 = 0 := by
  simp [range_start]

lemma range_nonempty (fs i : Nat) (h : 0 < fs) (hi : i < choose_threads fs) :
    range_start fs i ≤ range_end fs i := by
  have hp : 0 < part_size fs := part_size_pos fs h
  unfold range_start range_end
  apply le_min
  · rw [Nat.succ_mul]
    exact Nat.le_sub_one_of_lt (Nat.lt_add_of_pos_right hp)
  · have h1 : i * part_size fs ≤ (choose_threads fs - 1) * part_size fs :=
      mul_le_mul_right' (by omega) _
    exact Nat.le_sub_one_of_lt (lt_of_le_of_lt h1 (pred_threads_mul_lt fs h))

/-- For a non-last range, the `min` clip is inactive. -/
lemma range_end_formula (fs i : Nat) (h : 0 < fs) (hi : i + 1 < choose_threads fs) :
    range_end fs i = (i + 1) * part_size fs - 1 := by
  apply min_eq_left
  have h1 : (i + 1) * part_size fs ≤ (choose_threads fs - 1) * part_size fs :=
    mul_le_mul_right' (by omega) _
  exact Nat.sub_le_sub_right (le_of_lt (lt_of_le_of_lt h1 (pred_threads_mul_lt fs h))) 1

lemma range_contiguous (fs i : Nat) (h : 0 < fs) (hi : i + 1 < choose_threads fs) :
    range_start fs (i + 1) = range_end fs i + 1 := by
  rw [range_end_formula fs i h hi]
  unfold range_start
  have hp : 0 < part_size fs := part_size_pos fs h
  have hpos : 1 ≤ (i + 1) * part_size fs := Nat.mul_pos (by omega) hp
  exact (Nat.sub_add_cancel hpos).symm

/-- The final range's end offset is clipped to `file_size - 1`. -/
lemma range_end_last (fs : Nat) :
    range_end fs (choose_threads fs - 1) = fs - 1 := by
  unfold range_end
  have hn := choose_threads_pos fs
  have hs : choose_threads fs - 1 + 1 = choose_threads fs := by omega
  rw [hs]
  exact min_eq_right (Nat.sub_le_sub_right (file_size_le_threads_mul fs) 1)

lemma range_cover (fs b : Nat) (h : 0 < fs) (hb : b < fs) :
    ∃ i, i < choose_threads fs ∧ range_start fs i ≤ b ∧ b ≤ range_end fs i := by
  have hp : 0 < part_size fs := part_size_pos fs h
  refine ⟨b / part_size fs, ?_, ?_, ?_⟩
  · exact (Nat.div_lt_iff_lt_mul hp).mpr (lt_of_lt_of_le hb (file_size_le_threads_mul fs))
  · exact Nat.div_mul_le_self b _
  · unfold range_end
    exact le_min (Nat.le_sub_one_of_lt (lt_div_succ_mul b _ hp)) (Nat.le_sub_one_of_lt hb)

lemma range_disjoint (fs i j : Nat) (h : 0 < fs) (hij : i < j) :
    range_end fs i < range_start fs j := by
  have hp : 0 < part_size fs := part_size_pos fs h
  unfold range_start range_end
  calc min ((i + 1) * part_size fs - 1) (fs - 1)
      ≤ (i + 1) * part_size fs - 1 := min_le_left _ _
    _ < (i + 1) * part_size fs := Nat.sub_lt (Nat.mul_pos (by omega) hp) Nat.one_pos
    _ ≤ j * part_size fs := mul_le_mul_right' (by omega) _

lemma plan_ranges_length (fs : Nat) :
    (plan_ranges fs).length = choose_threads fs := by
  simp [plan_ranges]

lemma plan_ranges_get (fs i : Nat) (hi : i < choose_threads fs) :
    (plan_ranges fs)[i]? = some (range_start fs i, range_end fs i) := by
  unfold plan_ranges
  rw [List.getElem?_map, List.getElem?_range hi]
  rfl

/-! ### Facts about the merge loop -/

lemma joinParts_congr : ∀ (l : List Nat) (ps1 ps2 : Nat → Option (List Nat)),
    (∀ i ∈ l, ps1 i = ps2 i) → joinParts ps1 l = joinParts ps2 l := by
  intro l
  induction l with
  | nil => intro ps1 ps2 _; rfl
  | cons a rest ih =>
    intro ps1 ps2 hagree
    simp only [joinParts]
    rw [hagree a (List.mem_cons_self a rest), ih ps1 ps2 ?_]
    intro i hi
    exact hagree i (List.mem_cons_of_mem a hi)

/-- When every indexed part file is present, the merge loop concatenates them
all in order, reports no error, and deletes exactly the indexed part files. -/
lemma mergeStep_all_some : ∀ (l : List Nat) (ps : Nat → Option (List Nat)) (dest : List Nat),
    l.Nodup → (∀ i ∈ l, (ps i).isSome = true) →
    (mergeStep ps dest l).dest = dest ++ joinParts ps l ∧
    (mergeStep ps dest l).errored = false ∧
    ∀ j, (mergeStep ps dest l).parts j = if j ∈ l then none else ps j := by
  intro l
  induction l with
  | nil =>
    intro ps dest _ _
    refine ⟨by simp [mergeStep, joinParts], rfl, ?_⟩
    intro j
    simp [mergeStep]
  | cons a rest ih =>
    intro ps dest hnd hsome
    have hmem : a ∉ rest := (List.nodup_cons.mp hnd).1
    have hnd' : rest.Nodup := (List.nodup_cons.mp hnd).2
    obtain ⟨c, hc⟩ := Option.isSome_iff_exists.mp (hsome a (List.mem_cons_self a rest))
    have hstep : mergeStep ps dest (a :: rest) =
        mergeStep (fun j => if j = a then none else ps j) (dest ++ c) rest := by
      simp [mergeStep, hc]
    have hagree : ∀ i ∈ rest, (fun j => if j = a then none else ps j) i = ps i := by
      intro i hi
      have : i ≠ a := fun hia => hmem (hia ▸ hi)
      simp [this]
    have hsome' : ∀ i ∈ rest, ((fun j => if j = a then none else ps j) i).isSome = true := by
      intro i hi
      rw [hagree i hi]
      exact hsome i (List.mem_cons_of_mem a hi)
    obtain ⟨ihd, ihe, ihp⟩ := ih (fun j => if j = a then none else ps j) (dest ++ c) hnd' hsome'
    refine ⟨?_, ?_, ?_⟩
    · rw [hstep, ihd, joinParts_congr rest _ ps hagree]
      simp [joinParts, hc, List.append_assoc]
    · rw [hstep]; exact ihe
    · intro j
      rw [hstep, ihp j]
      by_cases hja : j = a
      · subst hja
        simp [hmem]
      · by_cases hjr : j ∈ rest
        · simp [hjr]
        · simp [hjr, hja]

/-- When the first missing part file in the index list is `j`, the merge loop
raises there: the destination holds the parts before `j` (already written),
those parts are deleted, and every other part file is unchanged. -/
lemma mergeStep_first_missing :
    ∀ (l1 : List Nat) (j : Nat) (l2 : List Nat) (ps : Nat → Option (List Nat)) (dest : List Nat),
    (l1 ++ j :: l2).Nodup → (∀ i ∈ l1, (ps i).isSome = true) → ps j = none →
    (mergeStep ps dest (l1 ++ j :: l2)).dest = dest ++ joinParts ps l1 ∧
    (mergeStep ps dest (l1 ++ j :: l2)).errored = true ∧
    (∀ i ∈ l1, (mergeStep ps dest (l1 ++ j :: l2)).parts i = none) ∧
    (∀ i, i ∉ l1 → (mergeStep ps dest (l1 ++ j :: l2)).parts i = ps i) := by
  intro l1
  induction l1 with
  | nil =>
    intro j l2 ps dest _ _ hj
    refine ⟨by simp [mergeStep, hj, joinParts], by simp [mergeStep, hj], ?_, ?_⟩
    · intro i hi
      exact absurd hi (List.not_mem_nil i)
    · intro i _
      simp [mergeStep, hj]
  | cons a rest ih =>
    intro j l2 ps dest hnd hsome hj
    have hnd0 : (a :: (rest ++ j :: l2)).Nodup := by simpa using hnd
    have hmem : a ∉ rest ++ j :: l2 := (List.nodup_cons.mp hnd0).1
    have hnd' : (rest ++ j :: l2).Nodup := (List.nodup_cons.mp hnd0).2
    obtain ⟨c, hc⟩ := Option.isSome_iff_exists.mp (hsome a (List.mem_cons_self a rest))
    have hstep : mergeStep ps dest ((a :: rest) ++ j :: l2) =
        mergeStep (fun k => if k = a then none else ps k) (dest ++ c) (rest ++ j :: l2) := by
      simp [mergeStep, hc]
    have haj : j ≠ a := by
      intro hja
      exact hmem (hja ▸ List.mem_append_right rest (List.mem_cons_self j l2))
    have hagree : ∀ i ∈ rest, (fun k => if k = a then none else ps k) i = ps i := by
      intro i hi
      have : i ≠ a := fun hia => hmem (hia ▸ List.mem_append_left _ hi)
      simp [this]
    have hsome' : ∀ i ∈ rest, ((fun k => if k = a then none else ps k) i).isSome = true := by
      intro i hi
      rw [hagree i hi]
      exact hsome i (List.mem_cons_of_mem a hi)
    have hj' : (fun k => if k = a then none else ps k) j = none := by
      simp [haj, hj]
    obtain ⟨ihd, ihe, ihdel, ihkeep⟩ :=
      ih j l2 (fun k => if k = a then none else ps k) (dest ++ c) hnd' hsome' hj'
    refine ⟨?_, ?_, ?_, ?_⟩
    · rw [hstep, ihd, joinParts_congr rest _ ps hagree]
      simp [joinParts, hc, List.append_assoc]
    · rw [hstep]; exact ihe
    · intro i hi
      rcases List.mem_cons.mp hi with hia | hir
      · subst hia
        have hanr : i ∉ rest := fun hr => hmem (List.mem_append_left _ hr)
        rw [hstep, ihkeep i hanr]
        simp
      · rw [hstep]
        exact ihdel i hir
    · intro i hi
      have hia : i ≠ a := fun h => hi (h ▸ List.mem_cons_self a rest)
      have hir : i ∉ rest := fun h => hi (List.mem_cons_of_mem a h)
      rw [hstep, ihkeep i hir]
      simp [hia]

/-- `range n` splits at any `j < n` into the indices below `j`, then `j`,
then the rest. -/
lemma range_split (j n : Nat) (h : j < n) :
    List.range n = List.range j ++ j :: ((List.range (n - j - 1)).map (fun k => j + (k + 1))) := by
  conv_lhs => rw [show n = j + ((n - j - 1) + 1) by omega]
  rw [List.range_add, List.range_succ_eq_map]
  simp only [List.map_cons, List.map_map, Nat.add_zero]
  congr 1


/-- `choose_threads` is monotonically non-decreasing, across tiers included. -/
lemma choose_threads_monotone (a b : Nat) (hab : a ≤ b) :
    choose_threads a ≤ choose_threads b := by
  unfold choose_threads
  split_ifs with h1 h2 h3 h4 h5 h6 h7 h8
  all_goals omega

/-! ### Facts about the worker loop -/

lemma run_advances_sum (init : Nat) (ds : List Nat) :
    run_advances init ds = init + ds.sum := by
  induction ds generalizing init with
  | nil => simp [run_advances]
  | cons d rest ih =>
    have step : run_advances init (d :: rest) = run_advances (init + d) rest := rfl
    rw [step, ih (init + d), List.sum_cons]
    omega

/-! ## Claims -/

/-- Claim C3 (code_bug evidence): the backoff of `download_range` at the
failing input 6,000,000 banked bytes is 60 seconds, while the spec formula
`min(64, 2^min(downloaded / 1_000_000, 6))` gives 64 seconds there; the two
disagree, so the documented 64-second cap is not what the code computes. -/
theorem C3_backoff_cap_is_60 :
    wait_time 6000000 = 60 ∧
    min 64 (2 ^ min (6000000 / 1000000) 6) = 64 ∧
    wait_time 6000000 ≠ min 64 (2 ^ min (6000000 / 1000000) 6) := by
  refine ⟨?_, ?_, ?_⟩ <;> decide

/-- Claim C5: a part whose file already holds `k` bytes (with the range not
yet complete) issues as its first request exactly the interval
`[start + k, stop]`, whose size is `range.length - k`; every offset of the
previously downloaded bytes lies strictly below the requested interval, so
none of the bytes `[0, k)` of the part is re-downloaded. -/
theorem C5_resume_requests_remainder (start stop k : Nat)
    (hse : start ≤ stop) (hk : k < stop - start + 1) :
    first_request start stop k = some (start + k, stop) ∧
    stop - (start + k) + 1 = (stop - start + 1) - k ∧
    ∀ j, j < k → start + j < start + k := by
  refine ⟨?_, ?_, ?_⟩
  · unfold first_request
    rw [if_pos hk]
  · omega
  · intro j hj
    omega

theorem C5_witness :
    (3 : Nat) < 9 - 0 + 1 ∧ first_request 0 9 3 = some (0 + 3, 9) :=
  ⟨by decide, (C5_resume_requests_remainder 0 9 3 (by decide) (by decide)).1⟩

/-- Claim C9: the lock-serialised progress counter is commutative and lossless:
for every initial total and every permutation of the deltas, the final total is
`initial + sum(deltas)`; and each `advance` with a positive delta strictly
increases the total. -/
theorem C9_progress_total :
    (∀ (init : Nat) (ds ds' : List Nat), List.Perm ds ds' →
      run_advances init ds' = init + ds.sum) ∧
    (∀ t d : Nat, 0 < d → t < advance t d) := by
  constructor
  · intro init ds ds' hperm
    rw [run_advances_sum, hperm.sum_eq]
  · intro t d hd
    unfold advance
    omega

theorem C9_witness :
    run_advances 5 [3, 2] = 5 + ([2, 3] : List Nat).sum ∧ (7 : Nat) < advance 7 1 :=
  ⟨C9_progress_total.1 5 [2, 3] [3, 2] (by decide), C9_progress_total.2 7 1 (by decide)⟩

/-- Claim C4: `choose_threads` follows the documented tiers (1 part below
50 MiB, `clamp(size/50MiB, 2, 4)` between 50 MiB and 500 MiB,
`clamp(size/100MiB, 4, 16)` from 500 MiB), is monotonically non-decreasing
in size across all tiers, and matches the spec's sample points
(10 MiB → 1, 100 MiB → 2 ∈ [2,4], 1 GiB → 10 ∈ [4,10], 2 GiB → 16). -/
theorem C4_choose_threads_tiers_monotone :
    (∀ s, s < 50 * 1024 * 1024 → choose_threads s = 1) ∧
    (∀ s, 50 * 1024 * 1024 ≤ s → s < 500 * 1024 * 1024 →
      choose_threads s = min 4 (max 2 (s / (50 * 1024 * 1024)))) ∧
    (∀ s, 500 * 1024 * 1024 ≤ s →
      choose_threads s = min 16 (max 4 (s / (100 * 1024 * 1024)))) ∧
    (∀ a b, a ≤ b → choose_threads a ≤ choose_threads b) ∧
    choose_threads (10 * 1024 * 1024) = 1 ∧
    (2 ≤ choose_threads (100 * 1024 * 1024) ∧ choose_threads (100 * 1024 * 1024) ≤ 4) ∧
    (4 ≤ choose_threads (1024 * 1024 * 1024) ∧ choose_threads (1024 * 1024 * 1024) ≤ 10) ∧
    choose_threads (2 * 1024 * 1024 * 1024) = 16 := by
  refine ⟨?_, ?_, ?_, choose_threads_monotone, by decide, ⟨by decide, by decide⟩,
    ⟨by decide, by decide⟩, by decide⟩
  · intro s hs
    unfold choose_threads
    rw [if_pos hs]
  · intro s h1 h2
    unfold choose_threads
    rw [if_neg (by omega), if_pos h2]
  · intro s h1
    unfold choose_threads
    rw [if_neg (by omega), if_neg (by omega)]

theorem C4_witness :
    (52428800 : Nat) ≤ 104857600 ∧ choose_threads 52428800 ≤ choose_threads 104857600 :=
  ⟨by decide, C4_choose_threads_tiers_monotone.2.2.2.1 52428800 104857600 (by decide)⟩

/-- Claim C2: for every positive total size, the planned ranges (part count
from the size tiers, part size `ceil(size / partCount)`) partition
`[0, totalSizeBytes)` exactly: the list has one entry per part, entry `i` is
`(range_start, range_end)`, the first start is 0, each range is non-empty,
consecutive ranges are contiguous, the final end offset is clipped to
`totalSizeBytes - 1`, every byte below the total size is covered, and
distinct ranges never overlap. -/
theorem C2_ranges_partition (fs : Nat) (h : 0 < fs) :
    (plan_ranges fs).length = choose_threads fs ∧
    (∀ i, i < choose_threads fs →
      (plan_ranges fs)[i]? = some (range_start fs i, range_end fs i)) ∧
    range_start fs 0 = 0 ∧
    (∀ i, i < choose_threads fs → range_start fs i ≤ range_end fs i) ∧
    (∀ i, i + 1 < choose_threads fs → range_start fs (i + 1) = range_end fs i + 1) ∧
    range_end fs (choose_threads fs - 1) = fs - 1 ∧
    (∀ b, b < fs → ∃ i, i < choose_threads fs ∧
      range_start fs i ≤ b ∧ b ≤ range_end fs i) ∧
    (∀ i j, i < j → range_end fs i < range_start fs j) := by
  refine ⟨plan_ranges_length fs, ?_, range_start_zero fs, ?_, ?_, range_end_last fs, ?_, ?_⟩
  · intro i hi
    exact plan_ranges_get fs i hi
  · intro i hi
    exact range_nonempty fs i h hi
  · intro i hi
    exact range_contiguous fs i h hi
  · intro b hb
    exact range_cover fs b h hb
  · intro i j hij
    exact range_disjoint fs i j h hij

theorem C2_witness :
    (0 : Nat) < 120 * 1024 * 1024 ∧
    range_end (120 * 1024 * 1024) (choose_threads (120 * 1024 * 1024) - 1) =
      120 * 1024 * 1024 - 1 :=
  ⟨by decide, (C2_ranges_partition (120 * 1024 * 1024) (by decide)).2.2.2.2.2.1⟩

/-- Claim C10: for every positive file size, with `n = choose_threads`,
`n * (n - 1) < file_size` holds in every tier, so every planned range is
non-empty (start ≤ end, hence at least one byte); the plan has exactly `n`
ranges, one per part index `0 .. n-1`, which are exactly the indices the
merge loop `for i in range(num_threads)` opens — so every part file the
merge opens corresponds to a planned, at-least-one-byte range. -/
theorem C10_every_range_nonempty (fs : Nat) (h : 0 < fs) :
    choose_threads fs * (choose_threads fs - 1) < fs ∧
    (∀ i, i < choose_threads fs → range_start fs i ≤ range_end fs i) ∧
    (∀ i, i < choose_threads fs → 0 < range_end fs i + 1 - range_start fs i) ∧
    (plan_ranges fs).length = choose_threads fs ∧
    (∀ i, i ∈ List.range (choose_threads fs) →
      ((plan_ranges fs)[i]?).isSome = true) := by
  refine ⟨choose_threads_mul_pred_lt fs h, ?_, ?_, plan_ranges_length fs, ?_⟩
  · intro i hi
    exact range_nonempty fs i h hi
  · intro i hi
    have := range_nonempty fs i h hi
    omega
  · intro i hi
    rw [plan_ranges_get fs i (List.mem_range.mp hi)]
    rfl

theorem C10_witness :
    (0 : Nat) < 600 * 1024 * 1024 ∧
    choose_threads (600 * 1024 * 1024) * (choose_threads (600 * 1024 * 1024) - 1) <
      600 * 1024 * 1024 :=
  ⟨by decide, (C10_every_range_nonempty (600 * 1024 * 1024) (by decide)).1⟩

/-- Claim C6 counterexample: a worker whose range needs 10 bytes receives one
exception-free response that streams only 4 bytes; the loop `break`s and the
worker returns with the part file holding 4 bytes, not `range.length = 10` —
so the loop does not terminate exactly at `downloaded == range.length`, and
the part file can hold fewer bytes than the range length even though the
worker returned without being killed. -/
theorem C6_counterexample :
    download_range_loop 10 [Attempt.success [4]] 0 = some 4 ∧ (4 : Nat) ≠ 10 := by
  refine ⟨?_, by decide⟩
  rfl

/-- Claim C6 as amended: the worker loop exits either when the banked byte
count has reached the range length (without a further request), or
immediately after the first exception-free response regardless of how many
bytes it streamed; after a failed iteration the loop continues with the
streamed bytes banked.  Consequently the part file ends at exactly
`range.length` bytes precisely when the successful response streams exactly
the remaining `len - downloaded` bytes. -/
theorem C6_amended_loop_behaviour :
    (∀ (len k : Nat) (cs : List Nat) (rest : List Attempt), k < len →
      download_range_loop len (Attempt.success cs :: rest) k = some (k + cs.sum)) ∧
    (∀ (len k : Nat) (a : Attempt) (rest : List Attempt), len ≤ k →
      download_range_loop len (a :: rest) k = some k) ∧
    (∀ (len k : Nat), download_range_loop len [] k =
      if k < len then none else some k) ∧
    (∀ (len k : Nat) (cs : List Nat) (rest : List Attempt), k < len →
      download_range_loop len (Attempt.fail cs :: rest) k =
        download_range_loop len rest (k + cs.sum)) ∧
    (∀ (len k : Nat) (cs : List Nat) (rest : List Attempt), k < len →
      cs.sum = len - k →
      download_range_loop len (Attempt.success cs :: rest) k = some len) := by
  refine ⟨?_, ?_, ?_, ?_, ?_⟩
  · intro len k cs rest hk
    simp [download_range_loop, hk]
  · intro len k a rest hk
    have hnl : ¬ k < len := by omega
    cases a <;> simp [download_range_loop, hnl]
  · intro len k
    rfl
  · intro len k cs rest hk
    simp [download_range_loop, hk]
  · intro len k cs rest hk hsum
    simp [download_range_loop, hk, hsum]
    omega

theorem C6_amended_witness :
    (7 : Nat) < 12 ∧ download_range_loop 12 [Attempt.success [5]] 7 = some 12 :=
  ⟨by decide, C6_amended_loop_behaviour.2.2.2.2 12 7 [5] [] (by decide) (by decide)⟩

/-- Claim C7: when the metadata step succeeds (no `KeyError` on the non-2xx
diagnostic, a Content-Length of `fs`, no html/json content type) and the
destination file exists with size exactly `fs`, the coordinator returns the
skipped-already-complete outcome — a constructor carrying no ranges: the
planning at lines 98-100, all part requests and all file writes occur only
in the `proceed` branch, which is not reached. -/
theorem C7_skip_already_complete (resp : HeadResponse) (fs : Nat)
    (h1 : ¬((resp.status < 200 ∨ 299 < resp.status) ∧ resp.location = none))
    (h2 : resp.contentLength = some fs)
    (h3 : (strContains (lowerStr (resp.contentType.getD emptyStr)) htmlMarker
        || strContains (lowerStr (resp.contentType.getD emptyStr)) jsonMarker) = false) :
    download_file_rich_plan resp true fs = CoordOutcome.skippedAlreadyComplete := by
  unfold download_file_rich_plan
  rw [if_neg h1, h2]
  simp [h3]

theorem C7_witness :
    download_file_rich_plan ⟨200, none, some 100, none⟩ true 100 =
      CoordOutcome.skippedAlreadyComplete :=
  C7_skip_already_complete ⟨200, none, some 100, none⟩ 100 (by decide) rfl (by decide)

/-- Claim C8 (code_bug evidence): a HEAD response with status 404, no
`Location` header, Content-Length 100 and a binary content type makes the
metadata step fail with the `KeyError` from `response.headers['Location']`
(line 83), although the claim's two failure conditions are both absent
(Content-Length is reported, and the content type contains neither
`"text/html"` nor `"application/json"`); by contrast the same non-2xx
response with a `Location` header proceeds normally, so the extra failure is
exactly the unguarded header access. -/
theorem C8_keyerror_on_missing_location :
    download_file_rich_plan ⟨404, none, some 100, some (String.mk
      ['v', 'i', 'd', 'e', 'o', '/', 'm', 'p', '4'])⟩ false 0 =
      CoordOutcome.keyErrorLocation ∧
    (strContains (lowerStr (String.mk ['v', 'i', 'd', 'e', 'o', '/', 'm', 'p', '4']))
      htmlMarker || strContains (lowerStr (String.mk
      ['v', 'i', 'd', 'e', 'o', '/', 'm', 'p', '4'])) jsonMarker) = false ∧
    download_file_rich_plan ⟨404, some emptyStr, some 100, some (String.mk
      ['v', 'i', 'd', 'e', 'o', '/', 'm', 'p', '4'])⟩ false 0 =
      CoordOutcome.proceed 100 (plan_ranges 100) := by
  refine ⟨by rfl, by decide, ?_⟩
  rfl

/-- Claim C1 counterexample: merging 2 parts where part 0 holds one byte and
part 1's file is missing.  The merge raises at part 1, but by then the
destination has been truncated and already holds part 0's byte (so it is not
left untouched, nor fully written — part 1's data is absent), and part file 0
has already been deleted (so the part files are not all preserved). -/
theorem C1_counterexample :
    (merge_parts 2 (fun i => if i = 0 then some [7] else none)).errored = true ∧
    (merge_parts 2 (fun i => if i = 0 then some [7] else none)).dest ≠ [] ∧
    (merge_parts 2 (fun i => if i = 0 then some [7] else none)).parts 0 = none := by
  refine ⟨rfl, by decide, rfl⟩

/-- Claim C1 as amended: the merge is sequential, not atomic.  If every part
file is present, the merge writes the destination as the in-order
concatenation of parts `0 .. n-1`, reports no error, and deletes exactly
those part files.  If part `j` is the first missing part, the merge errors
at `j` with the destination truncated and holding the concatenation of
parts `0 .. j-1`, parts `0 .. j-1` already deleted, and part files from `j`
on unchanged.  (A short part file raises no error at all: the loop has no
length check and concatenates whatever bytes are present.) -/
theorem C1_amended_merge_not_atomic :
    (∀ (n : Nat) (ps : Nat → Option (List Nat)),
      (∀ i, i < n → (ps i).isSome = true) →
      (merge_parts n ps).errored = false ∧
      (merge_parts n ps).dest = joinParts ps (List.range n) ∧
      (∀ j, j < n → (merge_parts n ps).parts j = none) ∧
      (∀ j, n ≤ j → (merge_parts n ps).parts j = ps j)) ∧
    (∀ (n j : Nat) (ps : Nat → Option (List Nat)),
      j < n → ps j = none → (∀ i, i < j → (ps i).isSome = true) →
      (merge_parts n ps).errored = true ∧
      (merge_parts n ps).dest = joinParts ps (List.range j) ∧
      (∀ i, i < j → (merge_parts n ps).parts i = none) ∧
      (∀ i, j ≤ i → (merge_parts n ps).parts i = ps i)) := by
  constructor
  · intro n ps hsome
    obtain ⟨hd, he, hp⟩ := mergeStep_all_some (List.range n) ps [] (List.nodup_range n)
      (fun i hi => hsome i (List.mem_range.mp hi))
    unfold merge_parts
    refine ⟨he, by rw [hd]; simp, ?_, ?_⟩
    · intro j hj
      rw [hp j]
      simp [List.mem_range.mpr hj]
    · intro j hj
      rw [hp j]
      have hnm : j ∉ List.range n := by
        simp only [List.mem_range]
        omega
      simp [hnm]
  · intro n j ps hjn hj hsome
    have hsplit := range_split j n hjn
    have hnd : (List.range j ++ j ::
        ((List.range (n - j - 1)).map (fun k => j + (k + 1)))).Nodup := by
      rw [← hsplit]
      exact List.nodup_range n
    obtain ⟨hd, he, hdel, hkeep⟩ := mergeStep_first_missing (List.range j) j
      ((List.range (n - j - 1)).map (fun k => j + (k + 1))) ps [] hnd
      (fun i hi => hsome i (List.mem_range.mp hi)) hj
    unfold merge_parts
    rw [hsplit]
    refine ⟨he, by rw [hd]; simp, ?_, ?_⟩
    · intro i hi
      exact hdel i (List.mem_range.mpr hi)
    · intro i hi
      apply hkeep
      simp only [List.mem_range]
      omega

theorem C1_amended_witness :
    (merge_parts 1 (fun _ => some [5])).errored = false ∧
    (merge_parts 1 (fun _ => some [5])).dest = joinParts (fun _ => some [5]) (List.range 1) :=
  ⟨(C1_amended_merge_not_atomic.1 1 (fun _ => some [5]) (by decide)).1,
   (C1_amended_merge_not_atomic.1 1 (fun _ => some [5]) (by decide)).2.1⟩
